import Mathlib

/-!
Verification development for the cue-based localization arena simulator
(`src/simulator.py`, class `ArenaEnv`).  The Python code is floating-point
numerics over 2-D geometry; it is embedded here over the real numbers:
`numpy` trigonometry becomes `Real.cos` / `Real.sin` / `Real.arctan`,
`x % (2*pi)` becomes an explicit wrap, `astype(int)` becomes truncation
toward zero, and the shapely geometry predicates (`Polygon.contains`,
`exterior.intersection`) are modelled by the standard half-plane and
segment-intersection formulas, which agree with shapely on the convex
arena polygons the code builds.  Paths through the Python code that raise
an exception are modelled by `Option` results (`none` = the call raises).
-/

open Real

namespace ArenaSim

/-- A 2-D point / vector, as used for `agent_position` and the wall
vertices (numpy arrays of two floats in the source). -/
structure Vec2 where
  x : ℝ
  y : ℝ

noncomputable instance : DecidableEq Vec2 := Classical.decEq _

namespace Vec2

instance : Add Vec2 := ⟨fun u v => ⟨u.x + v.x, u.y + v.y⟩⟩

instance : Sub Vec2 := ⟨fun u v => ⟨u.x - v.x, u.y - v.y⟩⟩

instance : SMul ℝ Vec2 := ⟨fun a v => ⟨a * v.x, a * v.y⟩⟩

@[simp] theorem add_x (u v : Vec2) : (u + v).x = u.x + v.x := rfl

@[simp] theorem add_y (u v : Vec2) : (u + v).y = u.y + v.y := rfl

@[simp] theorem sub_x (u v : Vec2) : (u - v).x = u.x - v.x := rfl

@[simp] theorem sub_y (u v : Vec2) : (u - v).y = u.y - v.y := rfl

@[simp] theorem smul_x (a : ℝ) (v : Vec2) : (a • v).x = a * v.x := rfl

@[simp] theorem smul_y (a : ℝ) (v : Vec2) : (a • v).y = a * v.y := rfl

@[ext] theorem ext {u v : Vec2} (hx : u.x = v.x) (hy : u.y = v.y) : u = v := by
  cases u; cases v; simp_all

/-- Euclidean norm, `np.linalg.norm` on a 2-vector. -/
noncomputable def norm (v : Vec2) : ℝ := Real.sqrt (v.x ^ 2 + v.y ^ 2)

end Vec2

/-- The 2-D cross product (z-component), the basic primitive of the
segment-intersection and point-in-convex-polygon computations that model
the shapely queries used by the source. -/
def cross (u v : Vec2) : ℝ := u.x * v.y - u.y * v.x

/-- Constructor parameters of `ArenaEnv.__init__`, with the retina
dimensions split into rows (`retina_dims[0]`) and columns
(`retina_dims[1]`). -/
structure Config where
  wallDist : ℝ
  wallHeight : ℝ
  numWalls : ℕ
  retinaRows : ℕ
  retinaCols : ℕ
  retinaScale : ℝ
  povHorizon : ℤ
  agentHeight : ℝ
  viewAngle : ℝ
  povDist : ℝ

/-- The mutable agent state of `ArenaEnv`: `self.agent_position` and
`self.agent_direction`. -/
structure AgentState where
  agent_position : Vec2
  agent_direction : ℝ

/-- Angle of wall vertex `k`: the source builds
`angles = 2*pi/num_walls * i` and then shifts by `-wall_view_angle/2`. -/
noncomputable def vertexAngle (cfg : Config) (k : ℕ) : ℝ :=
  2 * π * k / cfg.numWalls - π / cfg.numWalls

/-- Wall vertex `k` of the arena polygon,
`wall_dist * (cos a, sin a)` for the shifted angle `a`.  The closing
point of the ring (`k = num_walls`) coincides with vertex `0` because
`cos`/`sin` have period `2*pi`. -/
noncomputable def vertex (cfg : Config) (k : ℕ) : Vec2 :=
  ⟨cfg.wallDist * Real.cos (vertexAngle cfg k),
   cfg.wallDist * Real.sin (vertexAngle cfg k)⟩

/-- Model of `self.walls.contains(Point(p))`: shapely's `contains` is
membership in the interior, which for the convex counterclockwise arena
polygon is the strict positive side of every directed edge. -/
def Contains (cfg : Config) (p : Vec2) : Prop :=
  ∀ k : ℕ, k < cfg.numWalls →
    0 < cross (vertex cfg (k + 1) - vertex cfg k) (p - vertex cfg k)

/-- Membership in the boundary ring of the arena polygon: `p` lies on
some wall segment. -/
def OnBoundary (cfg : Config) (p : Vec2) : Prop :=
  ∃ k : ℕ, k < cfg.numWalls ∧ ∃ t : ℝ, 0 ≤ t ∧ t ≤ 1 ∧
    p = vertex cfg k + t • (vertex cfg (k + 1) - vertex cfg k)

/-- Proper intersection of the closed segments `[p, q]` and `[a, b]`
(the generic case of shapely's `LineString.intersection` used on each
wall edge); parallel segments (including the collinear-overlap
degenerate case, which cannot arise for rays cast from a point off the
edge's line) give no intersection point. -/
noncomputable def segInter (p q a b : Vec2) : Option Vec2 :=
  if cross (q - p) (b - a) = 0 then none
  else if 0 ≤ cross (a - p) (b - a) / cross (q - p) (b - a) ∧
          cross (a - p) (b - a) / cross (q - p) (b - a) ≤ 1 ∧
          0 ≤ cross (a - p) (q - p) / cross (q - p) (b - a) ∧
          cross (a - p) (q - p) / cross (q - p) (b - a) ≤ 1 then
    some (p + (cross (a - p) (b - a) / cross (q - p) (b - a)) • (q - p))
  else none

/-- Wrap into `[0, 2*pi)`: the real-arithmetic meaning of
`x % (2 * np.pi)` in the source. -/
noncomputable def wrap2pi (x : ℝ) : ℝ := x - 2 * π * (⌊x / (2 * π)⌋ : ℤ)

/-- Truncation toward zero, the meaning of numpy's `.astype(int)` on the
float values the source feeds it. -/
noncomputable def truncInt (x : ℝ) : ℤ := if 0 ≤ x then ⌊x⌋ else ⌈x⌉

/-- Model of `np.arctan2 y x`. -/
noncomputable def atan2 (y x : ℝ) : ℝ :=
  if 0 < x then Real.arctan (y / x)
  else if x < 0 ∧ 0 ≤ y then Real.arctan (y / x) + π
  else if x < 0 then Real.arctan (y / x) - π
  else if 0 < y then π / 2
  else if y < 0 then -(π / 2)
  else 0

/-- `ArenaEnv.find_angle`: the `arctan2` bearing from `p1` to `p2`,
wrapped into `[0, 2*pi)`. -/
noncomputable def findAngle (p1 p2 : Vec2) : ℝ :=
  wrap2pi (atan2 (p2.y - p1.y) (p2.x - p1.x))

/-- The state built by `ArenaEnv.__init__`: position at the origin,
direction `0`. -/
def initState : AgentState := ⟨⟨0, 0⟩, 0⟩

/-- Model of `ArenaEnv.__init__`: `none` models a constructor exception.
The constructor body performs no explicit validation; it raises only
when the wall polygon cannot be built: `num_walls = 0` hits an
out-of-bounds `angles[0]`, and `num_walls` `1` or `2` produce a closed
coordinate ring of fewer than the four points shapely requires for a
`LinearRing`.  Every other parameter combination (including non-positive
distances and scales) is accepted. -/
def init (cfg : Config) : Option AgentState :=
  if cfg.numWalls < 3 then none else some initState

/-- The candidate `new_direction` of `ArenaEnv.step`. -/
def proposedDirection (s : AgentState) (ddir : ℝ) : ℝ :=
  s.agent_direction + ddir

/-- The candidate `new_position` of `ArenaEnv.step`:
`position + speed * (cos new_direction, sin new_direction)`. -/
noncomputable def proposedPosition (s : AgentState) (speed ddir : ℝ) : Vec2 :=
  s.agent_position +
    speed • ⟨Real.cos (proposedDirection s ddir), Real.sin (proposedDirection s ddir)⟩

open Classical in
/-- The pose update of `ArenaEnv.step` (lines 106-114): commit the
proposed pose only if the walls contain the proposed position, then
always wrap the direction into `[0, 2*pi)`. -/
noncomputable def stepPose (cfg : Config) (s : AgentState) (speed ddir : ℝ) : AgentState :=
  let s1 := if Contains cfg (proposedPosition s speed ddir) then
      AgentState.mk (proposedPosition s speed ddir) (proposedDirection s ddir)
    else s
  ⟨s1.agent_position, wrap2pi s1.agent_direction⟩

/-- The pose after a sequence of `step` calls starting from the
constructed state. -/
noncomputable def runSteps (cfg : Config) (inputs : List (ℝ × ℝ)) : AgentState :=
  inputs.foldl (fun s a => stepPose cfg s a.1 a.2) initState

/-- `angle_increment = agent_view_angle / retina_dims[1]`. -/
noncomputable def angleInc (cfg : Config) : ℝ := cfg.viewAngle / cfg.retinaCols

/-- The `agent_edge_directions` array: the `find_angle` bearing from the
agent to wall vertex `k`, with `angle_increment` subtracted and the
result wrapped into `[0, 2*pi)` (lines 119-126 of the source). -/
noncomputable def edgeDirs (cfg : Config) (s : AgentState) (k : ℕ) : ℝ :=
  wrap2pi (findAngle s.agent_position (vertex cfg k) - angleInc cfg)

/-- The ray angle of retina column `i`:
`-view_angle/2 + i*angle_increment + angle_increment/2 + direction`. -/
noncomputable def rayAngle (cfg : Config) (s : AgentState) (i : Fin cfg.retinaCols) : ℝ :=
  -cfg.viewAngle / 2 + (i : ℕ) * angleInc cfg + angleInc cfg / 2 + s.agent_direction

/-- The far endpoint of the cast ray for column `i`: the agent position
plus `max_fov_distance = 2 * wall_dist` along the ray angle. -/
noncomputable def rayEnd (cfg : Config) (s : AgentState) (i : Fin cfg.retinaCols) : Vec2 :=
  s.agent_position +
    (2 * cfg.wallDist) • ⟨Real.cos (rayAngle cfg s i), Real.sin (rayAngle cfg s i)⟩

/-- The set of distinct points where the cast ray of column `i` meets
the wall ring, as shapely's `walls.exterior.intersection(ray)` reports
it (the geometric point set, duplicates merged). -/
noncomputable def rayHits (cfg : Config) (s : AgentState) (i : Fin cfg.retinaCols) : List Vec2 :=
  (((List.range cfg.numWalls).filterMap fun k =>
      segInter s.agent_position (rayEnd cfg s i) (vertex cfg k) (vertex cfg (k + 1)))).dedup

/-- The wall distance of column `i`
(`np.linalg.norm(np.hstack(intersection.xy) - agent_position)`).  The
code assumes the intersection is a single point; an empty intersection
or one of several points makes the numpy expression raise (broadcast
mismatch / `MultiPoint.xy`), modelled by `none`. -/
noncomputable def rayDist (cfg : Config) (s : AgentState) (i : Fin cfg.retinaCols) : Option ℝ :=
  match rayHits cfg s i with
  | [pt] => some (Vec2.norm (pt - s.agent_position))
  | _ => none

/-- The `distances` array of the step, `none` when any column's
intersection computation raises. -/
noncomputable def allDists (cfg : Config) (s : AgentState) :
    Option (Fin cfg.retinaCols → ℝ) :=
  if h : ∀ i, (rayDist cfg s i).isSome = true then
    some fun i => (rayDist cfg s i).get (h i)
  else none

/-- `pov_base = (agent_height / dist) * agent_pov_dist`. -/
noncomputable def povBase (cfg : Config) (d : ℝ) : ℝ :=
  cfg.agentHeight / d * cfg.povDist

/-- `pov_height = ((wall_height - agent_height) / dist) * agent_pov_dist`. -/
noncomputable def povTop (cfg : Config) (d : ℝ) : ℝ :=
  (cfg.wallHeight - cfg.agentHeight) / d * cfg.povDist

/-- The floor-boundary retina row of a column at wall distance `d`:
`b = retina_pov_horizon - (pov_base / retina_scale).astype(int)`. -/
noncomputable def rowB (cfg : Config) (d : ℝ) : ℤ :=
  cfg.povHorizon - truncInt (povBase cfg d / cfg.retinaScale)

/-- The ceiling-boundary retina row of a column at wall distance `d`:
`h = retina_pov_horizon + (pov_height / retina_scale).astype(int)`. -/
noncomputable def rowH (cfg : Config) (d : ℝ) : ℤ :=
  cfg.povHorizon + truncInt (povTop cfg d / cfg.retinaScale)

/-- The lower bound of column `i`'s angular slice,
`(ray_angle - angle_increment/2) % (2*pi)`. -/
noncomputable def lowerBound (cfg : Config) (s : AgentState) (i : Fin cfg.retinaCols) : ℝ :=
  wrap2pi (rayAngle cfg s i - angleInc cfg / 2)

/-- The upper bound of column `i`'s angular slice,
`(ray_angle + angle_increment/2) % (2*pi)`. -/
noncomputable def upperBound (cfg : Config) (s : AgentState) (i : Fin cfg.retinaCols) : ℝ :=
  wrap2pi (rayAngle cfg s i + angleInc cfg / 2)

/-- The entry `edges[i, k]` of the corner-detection matrix: the wrapped
comparison `lower_bounds[i] < agent_edge_directions[k] < upper_bounds[i]`. -/
noncomputable def cornerFor (cfg : Config) (s : AgentState) (i : Fin cfg.retinaCols)
    (k : ℕ) : Prop :=
  lowerBound cfg s i < edgeDirs cfg s k ∧ edgeDirs cfg s k < upperBound cfg s i

/-- Column `i` belongs to `edges_in_retina`: some wall vertex's adjusted
bearing falls inside the column's angular slice. -/
def isCornerCol (cfg : Config) (s : AgentState) (i : Fin cfg.retinaCols) : Prop :=
  ∃ k : ℕ, k < cfg.numWalls ∧ cornerFor cfg s i k

open Classical in
/-- The retina buffer as the step draws it (before the returned
row-reversed view): zeroed, then pixel `(b_i, i)` and `(h_i, i)` set to
`1` where those rows are in range, then every `edges_in_retina` column
overwritten with its `inner_wall` column, `1` exactly on the rows
strictly between `b_i` and `h_i` (lines 128-233 of the source). -/
noncomputable def retinaAfter (cfg : Config) (s : AgentState)
    (dists : Fin cfg.retinaCols → ℝ) (r : Fin cfg.retinaRows) (i : Fin cfg.retinaCols) : ℝ :=
  if isCornerCol cfg s i then
    if rowB cfg (dists i) < (r : ℕ) ∧ ((r : ℕ) : ℤ) < rowH cfg (dists i) then 1 else 0
  else
    if ((r : ℕ) : ℤ) = rowB cfg (dists i) ∨ ((r : ℕ) : ℤ) = rowH cfg (dists i) then 1
    else 0

/-- The buffer `step` returns: `self.retina[::-1]`, the row-reversed
view of the drawn buffer. -/
noncomputable def retinaOut (cfg : Config) (s : AgentState)
    (dists : Fin cfg.retinaCols → ℝ) (r : Fin cfg.retinaRows) (i : Fin cfg.retinaCols) : ℝ :=
  retinaAfter cfg s dists r.rev i

/-- `ArenaEnv.step`: the pose update followed by the raycasting and
retina drawing; the second component is the returned buffer, `none`
when the intersection computation raises. -/
noncomputable def step (cfg : Config) (s : AgentState) (speed ddir : ℝ) :
    AgentState ×
      Option ((r : Fin cfg.retinaRows) → (i : Fin cfg.retinaCols) → ℝ) :=
  (stepPose cfg s speed ddir,
   (allDists cfg (stepPose cfg s speed ddir)).map fun dists =>
     retinaOut cfg (stepPose cfg s speed ddir) dists)

/-! ### Basic lemmas about the wrap and the polygon -/

theorem wrap2pi_nonneg (x : ℝ) : 0 ≤ wrap2pi x := by
  have h2 : (0:ℝ) < 2 * π := Real.two_pi_pos
  have hfl : (⌊x / (2 * π)⌋ : ℝ) ≤ x / (2 * π) := Int.floor_le _
  have := (le_div_iff h2).mp hfl
  unfold wrap2pi
  nlinarith

theorem wrap2pi_lt (x : ℝ) : wrap2pi x < 2 * π := by
  have h2 : (0:ℝ) < 2 * π := Real.two_pi_pos
  have hfl : x / (2 * π) < (⌊x / (2 * π)⌋ : ℝ) + 1 := Int.lt_floor_add_one _
  have := (div_lt_iff h2).mp hfl
  unfold wrap2pi
  nlinarith

theorem wrap2pi_eq_self {x : ℝ} (h0 : 0 ≤ x) (h1 : x < 2 * π) : wrap2pi x = x := by
  have h2 : (0:ℝ) < 2 * π := Real.two_pi_pos
  have : ⌊x / (2 * π)⌋ = 0 := by
    rw [Int.floor_eq_zero_iff, Set.mem_Ico]
    exact ⟨by positivity, (div_lt_one h2).mpr h1⟩
  unfold wrap2pi
  rw [this]
  push_cast
  ring

theorem wrap2pi_zero : wrap2pi 0 = 0 :=
  wrap2pi_eq_self le_rfl Real.two_pi_pos

/-- Wrapping is invariant under shifting by an integer multiple of
`2*pi`. -/
theorem wrap2pi_sub_int_mul (x : ℝ) (n : ℤ) : wrap2pi (x - 2 * π * n) = wrap2pi x := by
  have h2 : (2 * π) ≠ 0 := ne_of_gt Real.two_pi_pos
  unfold wrap2pi
  have hq : (x - 2 * π * n) / (2 * π) = x / (2 * π) - n := by
    rw [sub_div, mul_comm (2 * π) (n:ℝ), mul_div_assoc, div_self h2, mul_one]
  rw [hq, Int.floor_sub_int]
  push_cast
  ring

/-- Wrapping the minuend first does not change a wrapped difference. -/
theorem wrap2pi_wrap_sub (a b : ℝ) : wrap2pi (wrap2pi a - b) = wrap2pi (a - b) := by
  have : wrap2pi a - b = a - b - 2 * π * (⌊a / (2 * π)⌋ : ℤ) := by
    unfold wrap2pi; ring
  rw [this, wrap2pi_sub_int_mul]

/-- A point on a wall segment is not strictly inside the polygon. -/
theorem onBoundary_not_contains {cfg : Config} {p : Vec2} (h : OnBoundary cfg p) :
    ¬ Contains cfg p := by
  obtain ⟨k, hk, t, _, _, rfl⟩ := h
  intro hC
  have hc := hC k hk
  have : cross (vertex cfg (k + 1) - vertex cfg k)
      (vertex cfg k + t • (vertex cfg (k + 1) - vertex cfg k) - vertex cfg k) = 0 := by
    unfold cross
    simp only [Vec2.sub_x, Vec2.sub_y, Vec2.add_x, Vec2.add_y, Vec2.smul_x, Vec2.smul_y]
    ring
  rw [this] at hc
  exact lt_irrefl 0 hc

/-- For a valid configuration the origin (the constructed agent
position) is strictly inside the wall polygon. -/
theorem contains_initState (cfg : Config) (h3 : 3 ≤ cfg.numWalls)
    (hD : 0 < cfg.wallDist) : Contains cfg initState.agent_position := by
  intro k hk
  have hN0 : (0:ℝ) < (cfg.numWalls : ℝ) := by
    have : 0 < cfg.numWalls := by omega
    exact_mod_cast this
  have hang : vertexAngle cfg (k + 1) - vertexAngle cfg k = 2 * π / cfg.numWalls := by
    unfold vertexAngle
    push_cast
    field_simp
    ring
  have hsin : 0 < Real.sin (2 * π / cfg.numWalls) := by
    apply Real.sin_pos_of_pos_of_lt_pi
    · positivity
    · rw [div_lt_iff hN0]
      have h3' : (3:ℝ) ≤ (cfg.numWalls : ℝ) := by exact_mod_cast h3
      nlinarith [Real.pi_pos]
  have hcross : cross (vertex cfg (k + 1) - vertex cfg k)
      (initState.agent_position - vertex cfg k) =
      cfg.wallDist ^ 2 * Real.sin (vertexAngle cfg (k + 1) - vertexAngle cfg k) := by
    unfold cross vertex initState
    simp only [Vec2.sub_x, Vec2.sub_y]
    rw [Real.sin_sub]
    ring
  rw [hcross, hang]
  positivity

/-- A `step` pose update preserves strict containment of the position:
the proposed position is committed only when the walls contain it. -/
theorem stepPose_contains (cfg : Config) (s : AgentState) (speed ddir : ℝ)
    (h : Contains cfg s.agent_position) :
    Contains cfg (stepPose cfg s speed ddir).agent_position := by
  unfold stepPose
  by_cases hc : Contains cfg (proposedPosition s speed ddir)
  · simpa [hc] using hc
  · simpa [hc] using h

/-- Containment holds along every run of `step` calls from the
constructed state. -/
theorem contains_runSteps (cfg : Config) (h3 : 3 ≤ cfg.numWalls)
    (hD : 0 < cfg.wallDist) (inputs : List (ℝ × ℝ)) :
    Contains cfg (runSteps cfg inputs).agent_position := by
  suffices h : ∀ s : AgentState, Contains cfg s.agent_position →
      Contains cfg (inputs.foldl (fun s a => stepPose cfg s a.1 a.2) s).agent_position by
    exact h initState (contains_initState cfg h3 hD)
  induction inputs with
  | nil => intro s hs; simpa using hs
  | cons a l ih =>
    intro s hs
    exact ih _ (stepPose_contains cfg s a.1 a.2 hs)

/-- The pose update with a rejected proposal leaves the position
untouched and only wraps the direction. -/
theorem stepPose_of_not_contains (cfg : Config) (s : AgentState) (speed ddir : ℝ)
    (h : ¬ Contains cfg (proposedPosition s speed ddir)) :
    stepPose cfg s speed ddir = ⟨s.agent_position, wrap2pi s.agent_direction⟩ := by
  unfold stepPose
  simp [h]

/-- A zero-speed, zero-turn step never moves the agent, whichever way
the containment test goes. -/
theorem stepPose_zero (cfg : Config) (s : AgentState) :
    stepPose cfg s 0 0 = ⟨s.agent_position, wrap2pi s.agent_direction⟩ := by
  have hpos : proposedPosition s 0 0 = s.agent_position := by
    unfold proposedPosition
    ext <;> simp
  have hdir : proposedDirection s 0 = s.agent_direction := by
    unfold proposedDirection; ring
  unfold stepPose
  rw [hpos, hdir]
  by_cases h : Contains cfg s.agent_position <;> simp [h]

/-! ### The claims -/

/-- C1: starting from the constructed state (position at the origin),
the agent's position is strictly contained in the wall polygon after
every `step` call, for every sequence of step inputs: a proposed
position is committed only if the arena contains it, otherwise the
previous position is kept. -/
theorem containment_invariant (cfg : Config) (h3 : 3 ≤ cfg.numWalls)
    (hD : 0 < cfg.wallDist) (inputs : List (ℝ × ℝ)) :
    Contains cfg (runSteps cfg inputs).agent_position :=
  contains_runSteps cfg h3 hD inputs

/-- Witness for C1 at the default arena (`num_walls = 4`,
`wall_dist = 5`) and a concrete two-step input sequence. -/
theorem containment_invariant_witness :
    Contains ⟨5, 1, 4, 50, 80, 8 / 1000, 20, 1 / 2, 3 * π / 2, 1 / 2⟩
      (runSteps ⟨5, 1, 4, 50, 80, 8 / 1000, 20, 1 / 2, 3 * π / 2, 1 / 2⟩
        [(15 / 1000, 1 / 100), (15 / 1000, 0)]).agent_position :=
  containment_invariant _ (by norm_num) (by norm_num) _

/-- C6: after every call to `step`, for any state and inputs, the stored
direction lies in `[0, 2*pi)` (the unconditional wrap on line 114). -/
theorem direction_normalized (cfg : Config) (s : AgentState) (speed ddir : ℝ) :
    0 ≤ (stepPose cfg s speed ddir).agent_direction ∧
      (stepPose cfg s speed ddir).agent_direction < 2 * π := by
  unfold stepPose
  exact ⟨wrap2pi_nonneg _, wrap2pi_lt _⟩

/-- C5: when the proposed position (current position plus `speed` times
the unit vector of the updated direction) is not contained in the wall
polygon, `step` leaves position and direction exactly equal to their
previous values — the rejection is joint.  The direction hypothesis
`0 ≤ direction < 2*pi` holds in every reachable state (it is
established at construction and maintained by `direction_normalized`'s
invariant); without it the final wrap would still renormalize an
out-of-range direction. -/
theorem rejection_exact (cfg : Config) (s : AgentState) (speed ddir : ℝ)
    (h0 : 0 ≤ s.agent_direction) (h1 : s.agent_direction < 2 * π)
    (hout : ¬ Contains cfg (proposedPosition s speed ddir)) :
    stepPose cfg s speed ddir = s := by
  rw [stepPose_of_not_contains cfg s speed ddir hout, wrap2pi_eq_self h0 h1]

/-- C7 counterexample: a configuration with a non-positive wall distance
(`wall_dist = -1 ≤ 0`) is accepted silently by the constructor — no
error is raised — refuting the claim that invalid distance/scale
parameters fail fast at construction. -/
theorem construction_no_validation_counterexample :
    (⟨-1, 1, 4, 50, 80, 8 / 1000, 20, 1 / 2, 3 * π / 2, 1 / 2⟩ : Config).wallDist ≤ 0 ∧
      (init ⟨-1, 1, 4, 50, 80, 8 / 1000, 20, 1 / 2, 3 * π / 2, 1 / 2⟩).isSome = true := by
  constructor
  · norm_num
  · rfl

/-- C7 amended: construction fails (with an exception from the polygon
construction) exactly when `num_walls < 3`; all other parameter values,
including non-positive distances and scales, are accepted without any
validation. -/
theorem construction_validation_amended (cfg : Config) :
    (init cfg).isSome = true ↔ 3 ≤ cfg.numWalls := by
  unfold init
  by_cases h : cfg.numWalls < 3 <;> simp [h] <;> omega

/-- C10: a proposed position lying exactly on the wall polygon's
boundary is rejected by `step` (shapely's `contains` is interior
membership, excluding the boundary), and consequently the position
after every sequence of steps is strictly inside the polygon, never on
the boundary. -/
theorem boundary_rejected (cfg : Config) (h3 : 3 ≤ cfg.numWalls)
    (hD : 0 < cfg.wallDist) (s : AgentState) (speed ddir : ℝ)
    (hB : OnBoundary cfg (proposedPosition s speed ddir)) (inputs : List (ℝ × ℝ)) :
    (stepPose cfg s speed ddir).agent_position = s.agent_position ∧
      Contains cfg (runSteps cfg inputs).agent_position ∧
      ¬ OnBoundary cfg (runSteps cfg inputs).agent_position := by
  refine ⟨?_, contains_runSteps cfg h3 hD inputs, ?_⟩
  · rw [stepPose_of_not_contains cfg s speed ddir (onBoundary_not_contains hB)]
  · intro hOn
    exact onBoundary_not_contains hOn (contains_runSteps cfg h3 hD inputs)

/-! ### Concrete evaluation of the pipeline on small configurations

The remaining claims are about the raycasting/projection pipeline, and
settling them needs the pipeline evaluated at concrete inputs.  A
one-column retina (`retina_dims[1] = 1`, `agent_view_angle = pi/2`) over
the default square arena keeps those evaluations tractable: the single
ray angle equals the agent direction. -/

/-- Square arena (`wall_dist = 5`, `num_walls = 4`), one-pixel retina,
`view_angle = pi/2`, default scale `0.008`, horizon `20`, heights. -/
noncomputable def cfg0 : Config := ⟨5, 1, 4, 1, 1, 8 / 1000, 20, 1 / 2, π / 2, 1 / 2⟩

/-- Same arena and view as `cfg0` but with 50 retina rows and horizon
row `10`, so that the floor/ceiling rows of the evaluated column are in
range. -/
noncomputable def cfg1 : Config := ⟨5, 1, 4, 50, 1, 8 / 1000, 10, 1 / 2, π / 2, 1 / 2⟩

/-- Agent state heading `pi/4` at the origin (reachable from the
constructed state by `step(0, pi/4)`). -/
noncomputable def s1 : AgentState := ⟨⟨0, 0⟩, π / 4⟩

/-- A state with the position far outside the arena; no ray of length
`2 * wall_dist = 10` can reach the walls from here. -/
def sFar : AgentState := ⟨⟨100, 0⟩, 0⟩

theorem sqrt2_pos : 0 < Real.sqrt 2 := Real.sqrt_pos.mpr (by norm_num)

theorem sqrt2_sq : Real.sqrt 2 * Real.sqrt 2 = 2 := Real.mul_self_sqrt (by norm_num)

theorem sqrt2_gt : (141 / 100 : ℝ) < Real.sqrt 2 := by
  nlinarith [sqrt2_sq, sqrt2_pos]

theorem sqrt2_lt : Real.sqrt 2 < 142 / 100 := by
  nlinarith [sqrt2_sq, sqrt2_pos]

theorem vertex_eval_0 (cfg : Config) (hD : cfg.wallDist = 5) (hN : cfg.numWalls = 4) :
    vertex cfg 0 = ⟨5 * Real.sqrt 2 / 2, -(5 * Real.sqrt 2 / 2)⟩ := by
  have ha : vertexAngle cfg 0 = -(π / 4) := by
    unfold vertexAngle; rw [hN]; push_cast; ring
  unfold vertex
  rw [ha, hD, Real.cos_neg, Real.sin_neg, Real.cos_pi_div_four, Real.sin_pi_div_four]
  exact Vec2.ext (by ring) (by ring)

theorem vertex_eval_1 (cfg : Config) (hD : cfg.wallDist = 5) (hN : cfg.numWalls = 4) :
    vertex cfg 1 = ⟨5 * Real.sqrt 2 / 2, 5 * Real.sqrt 2 / 2⟩ := by
  have ha : vertexAngle cfg 1 = π / 4 := by
    unfold vertexAngle; rw [hN]; push_cast; ring
  unfold vertex
  rw [ha, hD, Real.cos_pi_div_four, Real.sin_pi_div_four]
  exact Vec2.ext (by ring) (by ring)

theorem vertex_eval_2 (cfg : Config) (hD : cfg.wallDist = 5) (hN : cfg.numWalls = 4) :
    vertex cfg 2 = ⟨-(5 * Real.sqrt 2 / 2), 5 * Real.sqrt 2 / 2⟩ := by
  have ha : vertexAngle cfg 2 = π - π / 4 := by
    unfold vertexAngle; rw [hN]; push_cast; ring
  unfold vertex
  rw [ha, hD, Real.cos_pi_sub, Real.sin_pi_sub, Real.cos_pi_div_four, Real.sin_pi_div_four]
  exact Vec2.ext (by ring) (by ring)

theorem vertex_eval_3 (cfg : Config) (hD : cfg.wallDist = 5) (hN : cfg.numWalls = 4) :
    vertex cfg 3 = ⟨-(5 * Real.sqrt 2 / 2), -(5 * Real.sqrt 2 / 2)⟩ := by
  have ha : vertexAngle cfg 3 = π + π / 4 := by
    unfold vertexAngle; rw [hN]; push_cast; ring
  unfold vertex
  rw [ha, hD, Real.cos_add, Real.sin_add, Real.cos_pi, Real.sin_pi,
    Real.cos_pi_div_four, Real.sin_pi_div_four]
  exact Vec2.ext (by ring) (by ring)

theorem vertex_eval_4 (cfg : Config) (hD : cfg.wallDist = 5) (hN : cfg.numWalls = 4) :
    vertex cfg 4 = ⟨5 * Real.sqrt 2 / 2, -(5 * Real.sqrt 2 / 2)⟩ := by
  have ha : vertexAngle cfg 4 = 2 * π - π / 4 := by
    unfold vertexAngle; rw [hN]; push_cast; ring
  unfold vertex
  rw [ha, hD, Real.cos_sub, Real.sin_sub, Real.cos_two_pi, Real.sin_two_pi,
    Real.cos_pi_div_four, Real.sin_pi_div_four]
  exact Vec2.ext (by ring) (by ring)

/-- Evaluation rule for a successful segment intersection. -/
theorem segInter_eq_some {p q a b : Vec2} {den tnum unum : ℝ}
    (hden : cross (q - p) (b - a) = den) (hden0 : den ≠ 0)
    (ht : cross (a - p) (b - a) = tnum) (hu : cross (a - p) (q - p) = unum)
    (h0t : 0 ≤ tnum / den) (ht1 : tnum / den ≤ 1)
    (h0u : 0 ≤ unum / den) (hu1 : unum / den ≤ 1) :
    segInter p q a b = some (p + (tnum / den) • (q - p)) := by
  unfold segInter
  rw [hden, ht, hu, if_neg hden0, if_pos ⟨h0t, ht1, h0u, hu1⟩]

/-- Evaluation rule for parallel segments. -/
theorem segInter_eq_none_den {p q a b : Vec2}
    (hden : cross (q - p) (b - a) = 0) : segInter p q a b = none := by
  unfold segInter
  rw [hden, if_pos rfl]

/-- Evaluation rule when the ray-parameter of the crossing is negative. -/
theorem segInter_eq_none_t {p q a b : Vec2} {den tnum : ℝ}
    (hden : cross (q - p) (b - a) = den) (hden0 : den ≠ 0)
    (ht : cross (a - p) (b - a) = tnum) (htneg : tnum / den < 0) :
    segInter p q a b = none := by
  unfold segInter
  rw [hden, ht, if_neg hden0, if_neg]
  intro hcon
  linarith [hcon.1]

theorem angleInc_one (cfg : Config) (hc : cfg.retinaCols = 1) :
    angleInc cfg = cfg.viewAngle := by
  unfold angleInc
  rw [hc]
  norm_num

/-- With a one-column retina the single ray points along the agent's
heading. -/
theorem rayAngle_one_col (cfg : Config) (hc : cfg.retinaCols = 1) (s : AgentState)
    (i : Fin cfg.retinaCols) : rayAngle cfg s i = s.agent_direction := by
  have hi : (i : ℕ) = 0 := by have := i.isLt; omega
  have hcast : ((cfg.retinaCols : ℕ) : ℝ) = 1 := by rw [hc]; norm_num
  have hicast : (((i : ℕ) : ℕ) : ℝ) = 0 := by rw [hi]; norm_num
  unfold rayAngle angleInc
  rw [hcast, hicast]
  ring

theorem rayEnd_s0 (i : Fin cfg0.retinaCols) :
    rayEnd cfg0 initState i = ⟨10, 0⟩ := by
  unfold rayEnd
  rw [rayAngle_one_col cfg0 rfl initState i]
  refine Vec2.ext ?_ ?_ <;>
    simp [initState, cfg0, Real.cos_zero, Real.sin_zero] <;> norm_num

theorem segA_edge0 :
    segInter ⟨0, 0⟩ ⟨10, 0⟩ ⟨5 * Real.sqrt 2 / 2, -(5 * Real.sqrt 2 / 2)⟩
      ⟨5 * Real.sqrt 2 / 2, 5 * Real.sqrt 2 / 2⟩ = some ⟨5 * Real.sqrt 2 / 2, 0⟩ := by
  have hp := sqrt2_pos
  have hden : cross ((⟨10, 0⟩ : Vec2) - ⟨0, 0⟩)
      ((⟨5 * Real.sqrt 2 / 2, 5 * Real.sqrt 2 / 2⟩ : Vec2) -
        ⟨5 * Real.sqrt 2 / 2, -(5 * Real.sqrt 2 / 2)⟩) = 50 * Real.sqrt 2 := by
    simp only [cross, Vec2.sub_x, Vec2.sub_y]
    ring
  have ht : cross ((⟨5 * Real.sqrt 2 / 2, -(5 * Real.sqrt 2 / 2)⟩ : Vec2) - ⟨0, 0⟩)
      ((⟨5 * Real.sqrt 2 / 2, 5 * Real.sqrt 2 / 2⟩ : Vec2) -
        ⟨5 * Real.sqrt 2 / 2, -(5 * Real.sqrt 2 / 2)⟩) = 25 := by
    simp only [cross, Vec2.sub_x, Vec2.sub_y]
    linear_combination (25 / 2) * sqrt2_sq
  have hu : cross ((⟨5 * Real.sqrt 2 / 2, -(5 * Real.sqrt 2 / 2)⟩ : Vec2) - ⟨0, 0⟩)
      ((⟨10, 0⟩ : Vec2) - ⟨0, 0⟩) = 25 * Real.sqrt 2 := by
    simp only [cross, Vec2.sub_x, Vec2.sub_y]
    ring
  have hres := segInter_eq_some hden (by positivity) ht hu
    (by positivity)
    ((div_le_one (by positivity)).mpr (by nlinarith [sqrt2_gt]))
    (by positivity)
    ((div_le_one (by positivity)).mpr (by nlinarith [sqrt2_pos]))
  rw [hres]
  congr 1
  refine Vec2.ext ?_ ?_ <;>
    simp only [Vec2.add_x, Vec2.add_y, Vec2.smul_x, Vec2.smul_y, Vec2.sub_x, Vec2.sub_y]
  · rw [div_mul_eq_mul_div, zero_add,
      div_eq_div_iff (show (50 * Real.sqrt 2) ≠ 0 by positivity)
        (show (2:ℝ) ≠ 0 by norm_num)]
    linear_combination (-250 : ℝ) * sqrt2_sq
  · ring

theorem segA_edge1 :
    segInter ⟨0, 0⟩ ⟨10, 0⟩ ⟨5 * Real.sqrt 2 / 2, 5 * Real.sqrt 2 / 2⟩
      ⟨-(5 * Real.sqrt 2 / 2), 5 * Real.sqrt 2 / 2⟩ = none := by
  apply segInter_eq_none_den
  simp only [cross, Vec2.sub_x, Vec2.sub_y]
  ring

theorem segA_edge2 :
    segInter ⟨0, 0⟩ ⟨10, 0⟩ ⟨-(5 * Real.sqrt 2 / 2), 5 * Real.sqrt 2 / 2⟩
      ⟨-(5 * Real.sqrt 2 / 2), -(5 * Real.sqrt 2 / 2)⟩ = none := by
  have hp := sqrt2_pos
  have hden : cross ((⟨10, 0⟩ : Vec2) - ⟨0, 0⟩)
      ((⟨-(5 * Real.sqrt 2 / 2), -(5 * Real.sqrt 2 / 2)⟩ : Vec2) -
        ⟨-(5 * Real.sqrt 2 / 2), 5 * Real.sqrt 2 / 2⟩) = -(50 * Real.sqrt 2) := by
    simp only [cross, Vec2.sub_x, Vec2.sub_y]
    ring
  have ht : cross ((⟨-(5 * Real.sqrt 2 / 2), 5 * Real.sqrt 2 / 2⟩ : Vec2) - ⟨0, 0⟩)
      ((⟨-(5 * Real.sqrt 2 / 2), -(5 * Real.sqrt 2 / 2)⟩ : Vec2) -
        ⟨-(5 * Real.sqrt 2 / 2), 5 * Real.sqrt 2 / 2⟩) = 25 := by
    simp only [cross, Vec2.sub_x, Vec2.sub_y]
    linear_combination (25 / 2) * sqrt2_sq
  refine segInter_eq_none_t hden
    (ne_of_lt (show -(50 * Real.sqrt 2) < 0 by nlinarith [sqrt2_pos])) ht ?_
  apply div_neg_of_pos_of_neg (by norm_num)
  nlinarith [sqrt2_pos]

theorem segA_edge3 :
    segInter ⟨0, 0⟩ ⟨10, 0⟩ ⟨-(5 * Real.sqrt 2 / 2), -(5 * Real.sqrt 2 / 2)⟩
      ⟨5 * Real.sqrt 2 / 2, -(5 * Real.sqrt 2 / 2)⟩ = none := by
  apply segInter_eq_none_den
  simp only [cross, Vec2.sub_x, Vec2.sub_y]
  ring

theorem rayHits_s0 (i : Fin cfg0.retinaCols) :
    rayHits cfg0 initState i = [⟨5 * Real.sqrt 2 / 2, 0⟩] := by
  unfold rayHits
  rw [rayEnd_s0 i]
  have hrange : List.range cfg0.numWalls = [0, 1, 2, 3] := rfl
  rw [hrange]
  have hv0 := vertex_eval_0 cfg0 rfl rfl
  have hv1 := vertex_eval_1 cfg0 rfl rfl
  have hv2 := vertex_eval_2 cfg0 rfl rfl
  have hv3 := vertex_eval_3 cfg0 rfl rfl
  have hv4 := vertex_eval_4 cfg0 rfl rfl
  have hs : initState.agent_position = (⟨0, 0⟩ : Vec2) := rfl
  simp only [List.filterMap_cons, List.filterMap_nil, hs, hv0, hv1, hv2, hv3, hv4,
    Nat.reduceAdd, segA_edge0, segA_edge1, segA_edge2, segA_edge3]
  simp [List.dedup_cons_of_not_mem]

theorem rayDist_s0 (i : Fin cfg0.retinaCols) :
    rayDist cfg0 initState i = some (5 * Real.sqrt 2 / 2) := by
  unfold rayDist
  rw [rayHits_s0 i]
  have hn : Vec2.norm ((⟨5 * Real.sqrt 2 / 2, 0⟩ : Vec2) - initState.agent_position) =
      5 * Real.sqrt 2 / 2 := by
    unfold Vec2.norm
    have hc : ((⟨5 * Real.sqrt 2 / 2, 0⟩ : Vec2) - initState.agent_position).x ^ 2 +
        ((⟨5 * Real.sqrt 2 / 2, 0⟩ : Vec2) - initState.agent_position).y ^ 2 =
        (5 * Real.sqrt 2 / 2) ^ 2 := by
      simp only [initState, Vec2.sub_x, Vec2.sub_y]
      ring
    rw [hc, Real.sqrt_sq (by positivity)]
  exact congrArg some hn

theorem allDists_s0 : allDists cfg0 initState = some fun _ => 5 * Real.sqrt 2 / 2 := by
  unfold allDists
  have h : ∀ i : Fin cfg0.retinaCols, (rayDist cfg0 initState i).isSome = true := by
    intro i
    rw [rayDist_s0 i]
    rfl
  rw [dif_pos h]
  congr 1
  funext i
  exact Option.some_injective _ (by rw [Option.some_get, rayDist_s0 i])

/-! Bearings of the four wall vertices as seen from the origin, and the
resulting `agent_edge_directions` values for the `pi/2` view angle. -/

theorem atan2_pp : atan2 (5 * Real.sqrt 2 / 2) (5 * Real.sqrt 2 / 2) = π / 4 := by
  unfold atan2
  rw [if_pos (by positivity : (0:ℝ) < 5 * Real.sqrt 2 / 2),
    div_self (by positivity : (5 * Real.sqrt 2 / 2) ≠ 0)]
  exact Real.arctan_one

theorem atan2_np : atan2 (-(5 * Real.sqrt 2 / 2)) (5 * Real.sqrt 2 / 2) = -(π / 4) := by
  unfold atan2
  rw [if_pos (by positivity : (0:ℝ) < 5 * Real.sqrt 2 / 2), neg_div,
    div_self (by positivity : (5 * Real.sqrt 2 / 2) ≠ 0), Real.arctan_neg,
    Real.arctan_one]

theorem atan2_pn : atan2 (5 * Real.sqrt 2 / 2) (-(5 * Real.sqrt 2 / 2)) = 3 * π / 4 := by
  have hlt : -(5 * Real.sqrt 2 / 2) < 0 := by
    have := sqrt2_pos; nlinarith
  unfold atan2
  rw [if_neg (by linarith : ¬ (0:ℝ) < -(5 * Real.sqrt 2 / 2)),
    if_pos (⟨hlt, by positivity⟩ : -(5 * Real.sqrt 2 / 2) < 0 ∧ (0:ℝ) ≤ 5 * Real.sqrt 2 / 2),
    div_neg, div_self (by positivity : (5 * Real.sqrt 2 / 2) ≠ 0), Real.arctan_neg,
    Real.arctan_one]
  ring

theorem atan2_nn : atan2 (-(5 * Real.sqrt 2 / 2)) (-(5 * Real.sqrt 2 / 2)) = -(3 * π / 4) := by
  have hlt : -(5 * Real.sqrt 2 / 2) < 0 := by
    have := sqrt2_pos; nlinarith
  unfold atan2
  rw [if_neg (by linarith : ¬ (0:ℝ) < -(5 * Real.sqrt 2 / 2)),
    if_neg (by rintro ⟨-, h⟩; linarith :
      ¬ (-(5 * Real.sqrt 2 / 2) < 0 ∧ (0:ℝ) ≤ -(5 * Real.sqrt 2 / 2))),
    if_pos hlt, neg_div_neg_eq, div_self (by positivity : (5 * Real.sqrt 2 / 2) ≠ 0),
    Real.arctan_one]
  ring

theorem wrap2pi_eq_add {x : ℝ} (h0 : -(2 * π) ≤ x) (h1 : x < 0) :
    wrap2pi x = x + 2 * π := by
  have h2 : (0:ℝ) < 2 * π := Real.two_pi_pos
  have hfl : ⌊x / (2 * π)⌋ = -1 := by
    rw [Int.floor_eq_iff]
    constructor
    · push_cast
      rw [neg_le, ← neg_div]
      exact (div_le_one h2).mpr (by linarith)
    · push_cast
      norm_num
      exact div_neg_of_neg_of_pos h1 h2
  unfold wrap2pi
  rw [hfl]
  push_cast
  ring

/-- The `agent_edge_directions` values for the square arena seen from
the origin with view angle `pi/2` over one retina column:
`(bearing - angle_increment) % (2*pi)` for each of the four vertices. -/
theorem edgeDirs_square (cfg : Config) (hD : cfg.wallDist = 5) (hN : cfg.numWalls = 4)
    (hc : cfg.retinaCols = 1) (hv : cfg.viewAngle = π / 2) (s : AgentState)
    (hp : s.agent_position = ⟨0, 0⟩) :
    edgeDirs cfg s 0 = 5 * π / 4 ∧ edgeDirs cfg s 1 = 7 * π / 4 ∧
      edgeDirs cfg s 2 = π / 4 ∧ edgeDirs cfg s 3 = 3 * π / 4 := by
  have hpi := Real.pi_pos
  have hinc : angleInc cfg = π / 2 := by rw [angleInc_one cfg hc, hv]
  unfold edgeDirs findAngle
  rw [hp, hinc, vertex_eval_0 cfg hD hN, vertex_eval_1 cfg hD hN,
    vertex_eval_2 cfg hD hN, vertex_eval_3 cfg hD hN]
  simp only [Vec2.sub_x, Vec2.sub_y, sub_zero]
  rw [atan2_np, atan2_pp, atan2_pn, atan2_nn]
  refine ⟨?_, ?_, ?_, ?_⟩
  · rw [wrap2pi_wrap_sub, show -(π / 4) - π / 2 = -(3 * π / 4) by ring,
      wrap2pi_eq_add (by linarith) (by linarith)]
    ring
  · rw [wrap2pi_wrap_sub, show π / 4 - π / 2 = -(π / 4) by ring,
      wrap2pi_eq_add (by linarith) (by linarith)]
    ring
  · rw [wrap2pi_wrap_sub, show 3 * π / 4 - π / 2 = π / 4 by ring,
      wrap2pi_eq_self (by linarith) (by linarith)]
  · rw [wrap2pi_wrap_sub, show -(3 * π / 4) - π / 2 = -(5 * π / 4) by ring,
      wrap2pi_eq_add (by linarith) (by linarith)]
    ring

/-- Angular slice bounds of the single column for a one-column,
`pi/2`-view configuration. -/
theorem bounds_one_col (cfg : Config) (hc : cfg.retinaCols = 1) (hv : cfg.viewAngle = π / 2)
    (s : AgentState) (i : Fin cfg.retinaCols) :
    lowerBound cfg s i = wrap2pi (s.agent_direction - π / 4) ∧
      upperBound cfg s i = wrap2pi (s.agent_direction + π / 4) := by
  unfold lowerBound upperBound
  rw [rayAngle_one_col cfg hc s i, angleInc_one cfg hc, hv]
  exact ⟨congrArg wrap2pi (by ring), congrArg wrap2pi (by ring)⟩

/-- With the agent at the origin heading `0`, no vertex bearing passes
the corner test for the single column of `cfg0`. -/
theorem not_corner_s0 (i : Fin cfg0.retinaCols) : ¬ isCornerCol cfg0 initState i := by
  have hpi := Real.pi_pos
  obtain ⟨hd0, hd1, hd2, hd3⟩ := edgeDirs_square cfg0 rfl rfl rfl rfl initState rfl
  obtain ⟨hlow, hup⟩ := bounds_one_col cfg0 rfl rfl initState i
  rw [show initState.agent_direction = 0 from rfl] at hlow hup
  rw [show (0:ℝ) - π / 4 = -(π / 4) by ring,
    wrap2pi_eq_add (by linarith) (by linarith)] at hlow
  rintro ⟨k, hk, hlo, hhi⟩
  rw [hlow] at hlo
  have hk4 : k < 4 := hk
  interval_cases k
  · rw [hd0] at hlo; linarith
  · rw [hd1] at hlo; linarith
  · rw [hd2] at hlo; linarith
  · rw [hd3] at hlo; linarith

/-- With the agent at the origin heading `pi/4`, vertex `2` (bearing
`3*pi/4`, adjusted to `pi/4`) makes the single column of `cfg1` a
corner column. -/
theorem corner_s1 (i : Fin cfg1.retinaCols) : isCornerCol cfg1 s1 i := by
  have hpi := Real.pi_pos
  obtain ⟨hd0, hd1, hd2, hd3⟩ := edgeDirs_square cfg1 rfl rfl rfl rfl s1 rfl
  obtain ⟨hlow, hup⟩ := bounds_one_col cfg1 rfl rfl s1 i
  rw [show s1.agent_direction = π / 4 from rfl] at hlow hup
  rw [show π / 4 - π / 4 = (0:ℝ) by ring, wrap2pi_zero] at hlow
  rw [show π / 4 + π / 4 = π / 2 by ring,
    wrap2pi_eq_self (by linarith) (by linarith)] at hup
  exact ⟨2, by norm_num [cfg1], by rw [cornerFor, hlow, hd2, hup]; constructor <;> linarith⟩

/-- Retina rows of the `cfg0` column at wall distance `5*sqrt 2/2`:
`pov_base / retina_scale = 25*sqrt 2/4 ≈ 8.84`, truncated to `8`. -/
theorem povBase_cfg0_eval :
    povBase cfg0 (5 * Real.sqrt 2 / 2) / cfg0.retinaScale = 25 * Real.sqrt 2 / 4 := by
  unfold povBase
  show (1 / 2 : ℝ) / (5 * Real.sqrt 2 / 2) * (1 / 2) / (8 / 1000) = 25 * Real.sqrt 2 / 4
  rw [div_mul_eq_mul_div, div_div, div_eq_div_iff (by positivity) (by norm_num)]
  linear_combination (-(1 / 2) : ℝ) * sqrt2_sq

theorem rowB_cfg0 : rowB cfg0 (5 * Real.sqrt 2 / 2) = 12 := by
  have hq := povBase_cfg0_eval
  unfold rowB truncInt
  rw [hq, if_pos (by positivity)]
  rw [show ⌊25 * Real.sqrt 2 / 4⌋ = 8 from by
    rw [Int.floor_eq_iff]
    constructor
    · push_cast; nlinarith [sqrt2_gt]
    · push_cast; nlinarith [sqrt2_lt]]
  decide

theorem rowH_cfg0 : rowH cfg0 (5 * Real.sqrt 2 / 2) = 28 := by
  have hq : povTop cfg0 (5 * Real.sqrt 2 / 2) / cfg0.retinaScale = 25 * Real.sqrt 2 / 4 := by
    unfold povTop
    show ((1:ℝ) - 1 / 2) / (5 * Real.sqrt 2 / 2) * (1 / 2) / (8 / 1000) =
      25 * Real.sqrt 2 / 4
    rw [show (1:ℝ) - 1 / 2 = 1 / 2 by norm_num, div_mul_eq_mul_div, div_div,
      div_eq_div_iff (by positivity) (by norm_num)]
    linear_combination (-(1 / 2) : ℝ) * sqrt2_sq
  unfold rowH truncInt
  rw [hq, if_pos (by positivity)]
  rw [show ⌊25 * Real.sqrt 2 / 4⌋ = 8 from by
    rw [Int.floor_eq_iff]
    constructor
    · push_cast; nlinarith [sqrt2_gt]
    · push_cast; nlinarith [sqrt2_lt]]
  decide

theorem stepPose_s0 : stepPose cfg0 initState 0 0 = initState := by
  rw [stepPose_zero]
  show (⟨initState.agent_position, wrap2pi initState.agent_direction⟩ : AgentState) = initState
  rw [show initState.agent_direction = 0 from rfl, wrap2pi_zero]
  rfl

/-- The concrete buffer value of the `cfg0` evaluation scenario: both
projected rows (12 and 28) are outside the one-pixel retina, so
everything stays zero. -/
def buf0 : Fin cfg0.retinaRows → Fin cfg0.retinaCols → ℝ := fun _ _ => 0

def row0 : Fin cfg0.retinaRows := ⟨0, Nat.one_pos⟩

def col0 : Fin cfg0.retinaCols := ⟨0, Nat.one_pos⟩

theorem step_s0_buffer : (step cfg0 initState 0 0).2 = some buf0 := by
  unfold step
  rw [stepPose_s0, allDists_s0, Option.map_some']
  show some (retinaOut cfg0 initState fun _ => 5 * Real.sqrt 2 / 2) = some buf0
  congr 1
  funext r i
  unfold retinaOut retinaAfter buf0
  rw [if_neg (not_corner_s0 i)]
  rw [if_neg]
  intro hor
  have hv : (r.rev : ℕ) = 0 := by
    have h1 : cfg0.retinaRows = 1 := rfl
    have h2 := r.isLt
    rw [Fin.val_rev]
    omega
  simp only [rowB_cfg0, rowH_cfg0, hv] at hor
  omega

/-- C2: every buffer that `step` returns has shape
`(retina_height, retina_width)` — enforced here by its index types
`Fin retinaRows → Fin retinaCols` — and every entry equal to `0` or
`1`, for all states and all inputs `speed` and `direction_delta`.  (The
buffer is an `Option` because the intersection computation of a ray
that misses the walls raises; that never happens for reachable agent
states, which are strictly inside the arena.) -/
theorem step_buffer_binary (cfg : Config) (s : AgentState) (speed ddir : ℝ)
    (buf : Fin cfg.retinaRows → Fin cfg.retinaCols → ℝ)
    (h : (step cfg s speed ddir).2 = some buf) (r : Fin cfg.retinaRows)
    (i : Fin cfg.retinaCols) : buf r i = 0 ∨ buf r i = 1 := by
  unfold step at h
  rcases Option.map_eq_some'.mp h with ⟨dists, -, hbuf⟩
  rw [← hbuf]
  unfold retinaOut retinaAfter
  split_ifs <;> norm_num

/-- Witness for C2: the `cfg0` scenario returns the all-zero one-pixel
buffer, and the theorem applies to it. -/
theorem step_buffer_binary_witness :
    (step cfg0 initState 0 0).2 = some buf0 ∧
      (buf0 row0 col0 = 0 ∨ buf0 row0 col0 = 1) :=
  ⟨step_s0_buffer,
   step_buffer_binary cfg0 initState 0 0 buf0 step_s0_buffer row0 col0⟩

/-! ### Scenario: heading `pi/4` in `cfg1`; the ray passes through wall
vertex 1, touching two edges in the same point. -/

theorem stepPose_s1 : stepPose cfg1 s1 0 0 = s1 := by
  have hpi := Real.pi_pos
  rw [stepPose_zero]
  show (⟨s1.agent_position, wrap2pi s1.agent_direction⟩ : AgentState) = s1
  rw [show s1.agent_direction = π / 4 from rfl,
    wrap2pi_eq_self (by linarith) (by linarith)]
  rfl

theorem rayEnd_s1 (i : Fin cfg1.retinaCols) :
    rayEnd cfg1 s1 i = ⟨5 * Real.sqrt 2, 5 * Real.sqrt 2⟩ := by
  unfold rayEnd
  rw [rayAngle_one_col cfg1 rfl s1 i,
    show s1.agent_direction = π / 4 from rfl, Real.cos_pi_div_four, Real.sin_pi_div_four]
  refine Vec2.ext ?_ ?_ <;>
    simp only [s1, Vec2.add_x, Vec2.add_y, Vec2.smul_x, Vec2.smul_y] <;>
    rw [show cfg1.wallDist = 5 from rfl] <;> ring

theorem segB_edge0 :
    segInter ⟨0, 0⟩ ⟨5 * Real.sqrt 2, 5 * Real.sqrt 2⟩
      ⟨5 * Real.sqrt 2 / 2, -(5 * Real.sqrt 2 / 2)⟩
      ⟨5 * Real.sqrt 2 / 2, 5 * Real.sqrt 2 / 2⟩ =
      some ⟨5 * Real.sqrt 2 / 2, 5 * Real.sqrt 2 / 2⟩ := by
  have hp := sqrt2_pos
  have hden : cross ((⟨5 * Real.sqrt 2, 5 * Real.sqrt 2⟩ : Vec2) - ⟨0, 0⟩)
      ((⟨5 * Real.sqrt 2 / 2, 5 * Real.sqrt 2 / 2⟩ : Vec2) -
        ⟨5 * Real.sqrt 2 / 2, -(5 * Real.sqrt 2 / 2)⟩) = 50 := by
    simp only [cross, Vec2.sub_x, Vec2.sub_y]
    linear_combination (25 : ℝ) * sqrt2_sq
  have ht : cross ((⟨5 * Real.sqrt 2 / 2, -(5 * Real.sqrt 2 / 2)⟩ : Vec2) - ⟨0, 0⟩)
      ((⟨5 * Real.sqrt 2 / 2, 5 * Real.sqrt 2 / 2⟩ : Vec2) -
        ⟨5 * Real.sqrt 2 / 2, -(5 * Real.sqrt 2 / 2)⟩) = 25 := by
    simp only [cross, Vec2.sub_x, Vec2.sub_y]
    linear_combination (25 / 2 : ℝ) * sqrt2_sq
  have hu : cross ((⟨5 * Real.sqrt 2 / 2, -(5 * Real.sqrt 2 / 2)⟩ : Vec2) - ⟨0, 0⟩)
      ((⟨5 * Real.sqrt 2, 5 * Real.sqrt 2⟩ : Vec2) - ⟨0, 0⟩) = 50 := by
    simp only [cross, Vec2.sub_x, Vec2.sub_y]
    linear_combination (25 : ℝ) * sqrt2_sq
  have hres := segInter_eq_some hden (by norm_num) ht hu
    (by positivity) (by norm_num) (by positivity) (by norm_num)
  rw [hres]
  congr 1
  refine Vec2.ext ?_ ?_ <;>
    simp only [Vec2.add_x, Vec2.add_y, Vec2.smul_x, Vec2.smul_y, Vec2.sub_x, Vec2.sub_y] <;>
    ring

theorem segB_edge1 :
    segInter ⟨0, 0⟩ ⟨5 * Real.sqrt 2, 5 * Real.sqrt 2⟩
      ⟨5 * Real.sqrt 2 / 2, 5 * Real.sqrt 2 / 2⟩
      ⟨-(5 * Real.sqrt 2 / 2), 5 * Real.sqrt 2 / 2⟩ =
      some ⟨5 * Real.sqrt 2 / 2, 5 * Real.sqrt 2 / 2⟩ := by
  have hp := sqrt2_pos
  have hden : cross ((⟨5 * Real.sqrt 2, 5 * Real.sqrt 2⟩ : Vec2) - ⟨0, 0⟩)
      ((⟨-(5 * Real.sqrt 2 / 2), 5 * Real.sqrt 2 / 2⟩ : Vec2) -
        ⟨5 * Real.sqrt 2 / 2, 5 * Real.sqrt 2 / 2⟩) = 50 := by
    simp only [cross, Vec2.sub_x, Vec2.sub_y]
    linear_combination (25 : ℝ) * sqrt2_sq
  have ht : cross ((⟨5 * Real.sqrt 2 / 2, 5 * Real.sqrt 2 / 2⟩ : Vec2) - ⟨0, 0⟩)
      ((⟨-(5 * Real.sqrt 2 / 2), 5 * Real.sqrt 2 / 2⟩ : Vec2) -
        ⟨5 * Real.sqrt 2 / 2, 5 * Real.sqrt 2 / 2⟩) = 25 := by
    simp only [cross, Vec2.sub_x, Vec2.sub_y]
    linear_combination (25 / 2 : ℝ) * sqrt2_sq
  have hu : cross ((⟨5 * Real.sqrt 2 / 2, 5 * Real.sqrt 2 / 2⟩ : Vec2) - ⟨0, 0⟩)
      ((⟨5 * Real.sqrt 2, 5 * Real.sqrt 2⟩ : Vec2) - ⟨0, 0⟩) = 0 := by
    simp only [cross, Vec2.sub_x, Vec2.sub_y]
    ring
  have hres := segInter_eq_some hden (by norm_num) ht hu
    (by positivity) (by norm_num) (by norm_num) (by norm_num)
  rw [hres]
  congr 1
  refine Vec2.ext ?_ ?_ <;>
    simp only [Vec2.add_x, Vec2.add_y, Vec2.smul_x, Vec2.smul_y, Vec2.sub_x, Vec2.sub_y] <;>
    ring

theorem segB_edge2 :
    segInter ⟨0, 0⟩ ⟨5 * Real.sqrt 2, 5 * Real.sqrt 2⟩
      ⟨-(5 * Real.sqrt 2 / 2), 5 * Real.sqrt 2 / 2⟩
      ⟨-(5 * Real.sqrt 2 / 2), -(5 * Real.sqrt 2 / 2)⟩ = none := by
  have hp := sqrt2_pos
  have hden : cross ((⟨5 * Real.sqrt 2, 5 * Real.sqrt 2⟩ : Vec2) - ⟨0, 0⟩)
      ((⟨-(5 * Real.sqrt 2 / 2), -(5 * Real.sqrt 2 / 2)⟩ : Vec2) -
        ⟨-(5 * Real.sqrt 2 / 2), 5 * Real.sqrt 2 / 2⟩) = -50 := by
    simp only [cross, Vec2.sub_x, Vec2.sub_y]
    linear_combination (-25 : ℝ) * sqrt2_sq
  have ht : cross ((⟨-(5 * Real.sqrt 2 / 2), 5 * Real.sqrt 2 / 2⟩ : Vec2) - ⟨0, 0⟩)
      ((⟨-(5 * Real.sqrt 2 / 2), -(5 * Real.sqrt 2 / 2)⟩ : Vec2) -
        ⟨-(5 * Real.sqrt 2 / 2), 5 * Real.sqrt 2 / 2⟩) = 25 := by
    simp only [cross, Vec2.sub_x, Vec2.sub_y]
    linear_combination (25 / 2 : ℝ) * sqrt2_sq
  refine segInter_eq_none_t hden (by norm_num) ht ?_
  norm_num

theorem segB_edge3 :
    segInter ⟨0, 0⟩ ⟨5 * Real.sqrt 2, 5 * Real.sqrt 2⟩
      ⟨-(5 * Real.sqrt 2 / 2), -(5 * Real.sqrt 2 / 2)⟩
      ⟨5 * Real.sqrt 2 / 2, -(5 * Real.sqrt 2 / 2)⟩ = none := by
  have hp := sqrt2_pos
  have hden : cross ((⟨5 * Real.sqrt 2, 5 * Real.sqrt 2⟩ : Vec2) - ⟨0, 0⟩)
      ((⟨5 * Real.sqrt 2 / 2, -(5 * Real.sqrt 2 / 2)⟩ : Vec2) -
        ⟨-(5 * Real.sqrt 2 / 2), -(5 * Real.sqrt 2 / 2)⟩) = -50 := by
    simp only [cross, Vec2.sub_x, Vec2.sub_y]
    linear_combination (-25 : ℝ) * sqrt2_sq
  have ht : cross ((⟨-(5 * Real.sqrt 2 / 2), -(5 * Real.sqrt 2 / 2)⟩ : Vec2) - ⟨0, 0⟩)
      ((⟨5 * Real.sqrt 2 / 2, -(5 * Real.sqrt 2 / 2)⟩ : Vec2) -
        ⟨-(5 * Real.sqrt 2 / 2), -(5 * Real.sqrt 2 / 2)⟩) = 25 := by
    simp only [cross, Vec2.sub_x, Vec2.sub_y]
    linear_combination (25 / 2 : ℝ) * sqrt2_sq
  refine segInter_eq_none_t hden (by norm_num) ht ?_
  norm_num

theorem rayHits_s1 (i : Fin cfg1.retinaCols) :
    rayHits cfg1 s1 i = [⟨5 * Real.sqrt 2 / 2, 5 * Real.sqrt 2 / 2⟩] := by
  unfold rayHits
  rw [rayEnd_s1 i]
  have hrange : List.range cfg1.numWalls = [0, 1, 2, 3] := rfl
  rw [hrange]
  have hv0 := vertex_eval_0 cfg1 rfl rfl
  have hv1 := vertex_eval_1 cfg1 rfl rfl
  have hv2 := vertex_eval_2 cfg1 rfl rfl
  have hv3 := vertex_eval_3 cfg1 rfl rfl
  have hv4 := vertex_eval_4 cfg1 rfl rfl
  have hs : s1.agent_position = (⟨0, 0⟩ : Vec2) := rfl
  simp only [List.filterMap_cons, List.filterMap_nil, hs, hv0, hv1, hv2, hv3, hv4,
    Nat.reduceAdd, segB_edge0, segB_edge1, segB_edge2, segB_edge3]
  simp [List.dedup_cons_of_mem]

theorem rayDist_s1 (i : Fin cfg1.retinaCols) : rayDist cfg1 s1 i = some 5 := by
  unfold rayDist
  rw [rayHits_s1 i]
  have hn : Vec2.norm ((⟨5 * Real.sqrt 2 / 2, 5 * Real.sqrt 2 / 2⟩ : Vec2) -
      s1.agent_position) = 5 := by
    unfold Vec2.norm
    have hc : ((⟨5 * Real.sqrt 2 / 2, 5 * Real.sqrt 2 / 2⟩ : Vec2) -
        s1.agent_position).x ^ 2 + ((⟨5 * Real.sqrt 2 / 2, 5 * Real.sqrt 2 / 2⟩ : Vec2) -
        s1.agent_position).y ^ 2 = 5 ^ 2 := by
      simp only [s1, Vec2.sub_x, Vec2.sub_y]
      linear_combination (25 / 2 : ℝ) * sqrt2_sq
    rw [hc, Real.sqrt_sq (by norm_num)]
  exact congrArg some hn

theorem allDists_s1 : allDists cfg1 s1 = some fun _ => 5 := by
  unfold allDists
  have h : ∀ i : Fin cfg1.retinaCols, (rayDist cfg1 s1 i).isSome = true := by
    intro i
    rw [rayDist_s1 i]
    rfl
  rw [dif_pos h]
  congr 1
  funext i
  exact Option.some_injective _ (by rw [Option.some_get, rayDist_s1 i])

theorem rowB_cfg1 : rowB cfg1 5 = 4 := by
  have hq : povBase cfg1 5 / cfg1.retinaScale = 25 / 4 := by
    unfold povBase
    show (1 / 2 : ℝ) / 5 * (1 / 2) / (8 / 1000) = 25 / 4
    norm_num
  unfold rowB truncInt
  rw [hq, if_pos (by norm_num)]
  rw [show ⌊(25 / 4 : ℝ)⌋ = 6 from by
    rw [Int.floor_eq_iff] <;> norm_num]
  decide

theorem rowH_cfg1 : rowH cfg1 5 = 16 := by
  have hq : povTop cfg1 5 / cfg1.retinaScale = 25 / 4 := by
    unfold povTop
    show ((1:ℝ) - 1 / 2) / 5 * (1 / 2) / (8 / 1000) = 25 / 4
    norm_num
  unfold rowH truncInt
  rw [hq, if_pos (by norm_num)]
  rw [show ⌊(25 / 4 : ℝ)⌋ = 6 from by
    rw [Int.floor_eq_iff] <;> norm_num]
  decide

def col1 : Fin cfg1.retinaCols := ⟨0, Nat.one_pos⟩

def row4 : Fin cfg1.retinaRows := ⟨4, by norm_num [cfg1]⟩

def row5 : Fin cfg1.retinaRows := ⟨5, by norm_num [cfg1]⟩

/-- C4 counterexample: in the `cfg1` scenario the single column is a
corner column (vertex 2), `step` succeeds with wall distance 5, the
floor row `b = 4` is in range `[0, 50)`, and yet the drawn buffer is
`0` at pixel `(4, 0)`: the corner overlay overwrote the whole column
and cleared the floor-boundary pixel, refuting the claim that the
boundary pixels are set (and not cleared) in every column with an
in-range floor row. -/
theorem retina_pixels_counterexample :
    rowB cfg1 5 = 4 ∧ (0:ℤ) ≤ 4 ∧ (4:ℤ) < (cfg1.retinaRows : ℤ) ∧
      isCornerCol cfg1 s1 col1 ∧
      (step cfg1 s1 0 0).2 = some (retinaOut cfg1 s1 fun _ => 5) ∧
      retinaAfter cfg1 s1 (fun _ => 5) row4 col1 = 0 := by
  refine ⟨rowB_cfg1, by norm_num, by norm_num [cfg1], corner_s1 col1, ?_, ?_⟩
  · unfold step
    rw [stepPose_s1, allDists_s1, Option.map_some']
  · unfold retinaAfter
    rw [if_pos (corner_s1 col1), if_neg]
    rintro ⟨h1, -⟩
    simp only [rowB_cfg1] at h1
    have hv : ((row4 : ℕ) : ℤ) = 4 := rfl
    omega

/-- C4 amended: pixels as the code actually draws them.  In a
non-corner column the drawn buffer is `1` exactly at the in-range floor
row `b_i` and ceiling row `h_i` (out-of-range rows are clipped, not
drawn); in a corner column the overlay overwrites the entire column, so
the buffer is `1` exactly on the rows strictly between `b_i` and `h_i`
and the boundary pixels at `b_i` and `h_i` are cleared. -/
theorem retina_pixels_amended (cfg : Config) (s : AgentState)
    (dists : Fin cfg.retinaCols → ℝ) (r : Fin cfg.retinaRows) (i : Fin cfg.retinaCols) :
    (¬ isCornerCol cfg s i →
      (retinaAfter cfg s dists r i = 1 ↔
        ((r : ℕ) : ℤ) = rowB cfg (dists i) ∨ ((r : ℕ) : ℤ) = rowH cfg (dists i))) ∧
    (isCornerCol cfg s i →
      (retinaAfter cfg s dists r i = 1 ↔
        (rowB cfg (dists i) < ((r : ℕ) : ℤ) ∧ ((r : ℕ) : ℤ) < rowH cfg (dists i)))) := by
  constructor
  · intro hnc
    unfold retinaAfter
    rw [if_neg hnc]
    split_ifs with h
    · simp [h]
    · norm_num [h]
  · intro hc
    unfold retinaAfter
    rw [if_pos hc]
    split_ifs with h
    · simp [h]
    · norm_num [h]

/-- Witness for the amended C4: row 5 of the corner column (strictly
between `b = 4` and `h = 16`) is set to `1`. -/
theorem retina_pixels_amended_witness :
    retinaAfter cfg1 s1 (fun _ => 5) row5 col1 = 1 := by
  refine ((retina_pixels_amended cfg1 s1 (fun _ => 5) row5 col1).2 (corner_s1 col1)).mpr ?_
  have hv : ((row5 : ℕ) : ℤ) = 5 := rfl
  constructor
  · simp only [rowB_cfg1]
    omega
  · simp only [rowH_cfg1]
    omega

/-- C3 counterexample: in the `cfg1` scenario (heading `pi/4`, one
column with slice `(0, pi/2)`), the wrapped bearing from the agent to
vertex 1 is `pi/4`, strictly inside the column's angular slice — so
under the claim's reading the column is a corner column for vertex 1 —
but the code's comparison value subtracts `angle_increment` before
wrapping, and the code classifies the pair as not a corner match. -/
theorem corner_bearing_counterexample :
    stepPose cfg1 s1 0 0 = s1 ∧
      lowerBound cfg1 s1 col1 < findAngle s1.agent_position (vertex cfg1 1) ∧
      findAngle s1.agent_position (vertex cfg1 1) < upperBound cfg1 s1 col1 ∧
      ¬ cornerFor cfg1 s1 col1 1 := by
  have hpi := Real.pi_pos
  obtain ⟨hlow, hup⟩ := bounds_one_col cfg1 rfl rfl s1 col1
  rw [show s1.agent_direction = π / 4 from rfl] at hlow hup
  rw [show π / 4 - π / 4 = (0:ℝ) by ring, wrap2pi_zero] at hlow
  rw [show π / 4 + π / 4 = π / 2 by ring,
    wrap2pi_eq_self (by linarith) (by linarith)] at hup
  have hfa : findAngle s1.agent_position (vertex cfg1 1) = π / 4 := by
    unfold findAngle
    rw [show s1.agent_position = (⟨0, 0⟩ : Vec2) from rfl, vertex_eval_1 cfg1 rfl rfl]
    simp only [Vec2.sub_x, Vec2.sub_y, sub_zero]
    rw [atan2_pp, wrap2pi_eq_self (by linarith) (by linarith)]
  obtain ⟨-, hd1, -, -⟩ := edgeDirs_square cfg1 rfl rfl rfl rfl s1 rfl
  refine ⟨stepPose_s1, ?_, ?_, ?_⟩
  · rw [hlow, hfa]; linarith
  · rw [hup, hfa]; linarith
  · unfold cornerFor
    rintro ⟨-, h2⟩
    rw [hd1, hup] at h2
    linarith

/-- C3 amended: the value the corner test compares against each
column's angular slice is the `arctan2` bearing from the agent position
to the vertex **minus `angle_increment`**, wrapped to `[0, 2*pi)`; with
that adjusted bearing, column `i` is a corner match for vertex `k`
exactly when `lower_i < dir < upper_i` under the wrapped comparison. -/
theorem corner_bearing_amended (cfg : Config) (s : AgentState)
    (i : Fin cfg.retinaCols) (k : ℕ) :
    cornerFor cfg s i k ↔
      (lowerBound cfg s i <
        wrap2pi (atan2 ((vertex cfg k).y - s.agent_position.y)
          ((vertex cfg k).x - s.agent_position.x) - angleInc cfg) ∧
       wrap2pi (atan2 ((vertex cfg k).y - s.agent_position.y)
          ((vertex cfg k).x - s.agent_position.x) - angleInc cfg) < upperBound cfg s i) := by
  unfold cornerFor edgeDirs findAngle
  rw [wrap2pi_wrap_sub]

/-! ### Scenario: position far outside the arena; the single ray of
`cfg0` misses every wall. -/

theorem stepPose_sFar : stepPose cfg0 sFar 0 0 = sFar := by
  rw [stepPose_zero]
  show (⟨sFar.agent_position, wrap2pi sFar.agent_direction⟩ : AgentState) = sFar
  rw [show sFar.agent_direction = 0 from rfl, wrap2pi_zero]
  rfl

theorem rayEnd_sFar (i : Fin cfg0.retinaCols) : rayEnd cfg0 sFar i = ⟨110, 0⟩ := by
  unfold rayEnd
  rw [rayAngle_one_col cfg0 rfl sFar i]
  refine Vec2.ext ?_ ?_ <;>
    simp [sFar, cfg0, Real.cos_zero, Real.sin_zero] <;> norm_num

theorem segC_edge0 :
    segInter ⟨100, 0⟩ ⟨110, 0⟩ ⟨5 * Real.sqrt 2 / 2, -(5 * Real.sqrt 2 / 2)⟩
      ⟨5 * Real.sqrt 2 / 2, 5 * Real.sqrt 2 / 2⟩ = none := by
  have hp := sqrt2_pos
  have hlt := sqrt2_lt
  have hden : cross ((⟨110, 0⟩ : Vec2) - ⟨100, 0⟩)
      ((⟨5 * Real.sqrt 2 / 2, 5 * Real.sqrt 2 / 2⟩ : Vec2) -
        ⟨5 * Real.sqrt 2 / 2, -(5 * Real.sqrt 2 / 2)⟩) = 50 * Real.sqrt 2 := by
    simp only [cross, Vec2.sub_x, Vec2.sub_y]
    ring
  have ht : cross ((⟨5 * Real.sqrt 2 / 2, -(5 * Real.sqrt 2 / 2)⟩ : Vec2) - ⟨100, 0⟩)
      ((⟨5 * Real.sqrt 2 / 2, 5 * Real.sqrt 2 / 2⟩ : Vec2) -
        ⟨5 * Real.sqrt 2 / 2, -(5 * Real.sqrt 2 / 2)⟩) = 25 - 500 * Real.sqrt 2 := by
    simp only [cross, Vec2.sub_x, Vec2.sub_y]
    linear_combination (25 / 2 : ℝ) * sqrt2_sq
  refine segInter_eq_none_t hden (by positivity) ht ?_
  apply div_neg_of_neg_of_pos
  · nlinarith [sqrt2_gt]
  · positivity

theorem segC_edge1 :
    segInter ⟨100, 0⟩ ⟨110, 0⟩ ⟨5 * Real.sqrt 2 / 2, 5 * Real.sqrt 2 / 2⟩
      ⟨-(5 * Real.sqrt 2 / 2), 5 * Real.sqrt 2 / 2⟩ = none := by
  apply segInter_eq_none_den
  simp only [cross, Vec2.sub_x, Vec2.sub_y]
  ring

theorem segC_edge2 :
    segInter ⟨100, 0⟩ ⟨110, 0⟩ ⟨-(5 * Real.sqrt 2 / 2), 5 * Real.sqrt 2 / 2⟩
      ⟨-(5 * Real.sqrt 2 / 2), -(5 * Real.sqrt 2 / 2)⟩ = none := by
  have hp := sqrt2_pos
  have hden : cross ((⟨110, 0⟩ : Vec2) - ⟨100, 0⟩)
      ((⟨-(5 * Real.sqrt 2 / 2), -(5 * Real.sqrt 2 / 2)⟩ : Vec2) -
        ⟨-(5 * Real.sqrt 2 / 2), 5 * Real.sqrt 2 / 2⟩) = -(50 * Real.sqrt 2) := by
    simp only [cross, Vec2.sub_x, Vec2.sub_y]
    ring
  have ht : cross ((⟨-(5 * Real.sqrt 2 / 2), 5 * Real.sqrt 2 / 2⟩ : Vec2) - ⟨100, 0⟩)
      ((⟨-(5 * Real.sqrt 2 / 2), -(5 * Real.sqrt 2 / 2)⟩ : Vec2) -
        ⟨-(5 * Real.sqrt 2 / 2), 5 * Real.sqrt 2 / 2⟩) = 25 + 500 * Real.sqrt 2 := by
    simp only [cross, Vec2.sub_x, Vec2.sub_y]
    linear_combination (25 / 2 : ℝ) * sqrt2_sq
  refine segInter_eq_none_t hden
    (ne_of_lt (show -(50 * Real.sqrt 2) < 0 by nlinarith)) ht ?_
  apply div_neg_of_pos_of_neg
  · nlinarith
  · nlinarith

theorem segC_edge3 :
    segInter ⟨100, 0⟩ ⟨110, 0⟩ ⟨-(5 * Real.sqrt 2 / 2), -(5 * Real.sqrt 2 / 2)⟩
      ⟨5 * Real.sqrt 2 / 2, -(5 * Real.sqrt 2 / 2)⟩ = none := by
  apply segInter_eq_none_den
  simp only [cross, Vec2.sub_x, Vec2.sub_y]
  ring

theorem rayHits_sFar (i : Fin cfg0.retinaCols) : rayHits cfg0 sFar i = [] := by
  unfold rayHits
  rw [rayEnd_sFar i]
  have hrange : List.range cfg0.numWalls = [0, 1, 2, 3] := rfl
  rw [hrange]
  have hv0 := vertex_eval_0 cfg0 rfl rfl
  have hv1 := vertex_eval_1 cfg0 rfl rfl
  have hv2 := vertex_eval_2 cfg0 rfl rfl
  have hv3 := vertex_eval_3 cfg0 rfl rfl
  have hv4 := vertex_eval_4 cfg0 rfl rfl
  have hs : sFar.agent_position = (⟨100, 0⟩ : Vec2) := rfl
  simp only [List.filterMap_cons, List.filterMap_nil, hs, hv0, hv1, hv2, hv3, hv4,
    Nat.reduceAdd, segC_edge0, segC_edge1, segC_edge2, segC_edge3]
  simp

theorem rayDist_sFar (i : Fin cfg0.retinaCols) : rayDist cfg0 sFar i = none := by
  unfold rayDist
  rw [rayHits_sFar i]

/-- C8 counterexample: with the agent position outside the arena, the
single ray has no intersection with the boundary, and `step` does not
far-clip the column — the distance computation raises (no buffer is
produced), refuting the claim that the column is treated as having an
intersection at `max_fov_distance` and that `step` completes
normally. -/
theorem ray_no_intersection_counterexample :
    rayDist cfg0 sFar col0 = none ∧ (step cfg0 sFar 0 0).2 = none := by
  refine ⟨rayDist_sFar col0, ?_⟩
  have hnone : allDists cfg0 sFar = none := by
    unfold allDists
    rw [dif_neg]
    intro hall
    have hx := hall col0
    rw [rayDist_sFar col0] at hx
    simp at hx
  unfold step
  rw [stepPose_sFar, hnone]
  rfl

/-- C8 amended: when a cast ray has no single intersection point with
the arena boundary, the per-step retina computation fails (the numpy
distance expression raises) and `step` produces no buffer — there is no
`max_fov_distance` far-clip fallback.  Such rays cannot arise from
reachable states, whose positions are strictly inside the polygon. -/
theorem ray_no_intersection_amended (cfg : Config) (s : AgentState) (speed ddir : ℝ)
    (i : Fin cfg.retinaCols)
    (h : rayDist cfg (stepPose cfg s speed ddir) i = none) :
    (step cfg s speed ddir).2 = none := by
  have hnone : allDists cfg (stepPose cfg s speed ddir) = none := by
    unfold allDists
    rw [dif_neg]
    intro hall
    have hx := hall i
    rw [h] at hx
    simp at hx
  unfold step
  rw [hnone]
  rfl

/-- Witness for the amended C8 at the concrete missing-ray state. -/
theorem ray_no_intersection_amended_witness : (step cfg0 sFar 0 0).2 = none :=
  ray_no_intersection_amended cfg0 sFar 0 0 col0
    (by rw [stepPose_sFar]; exact rayDist_sFar col0)

/-- C9 counterexample: at the wall distance `5*sqrt 2/2` that the
`cfg0` scenario actually produces, `pov_base / retina_scale =
25*sqrt 2/4 ≈ 8.84`; the code's `astype(int)` truncates it to `8`
(floor row `12`), while the claimed rounding would give `9` (row `11`),
so the claimed formula `b_i = horizon_row - round(pov_base/scale)` does
not describe the code. -/
theorem projection_round_counterexample :
    rowB cfg0 (5 * Real.sqrt 2 / 2) ≠
      cfg0.povHorizon - round (povBase cfg0 (5 * Real.sqrt 2 / 2) / cfg0.retinaScale) := by
  rw [rowB_cfg0, povBase_cfg0_eval, round_eq]
  rw [show ⌊25 * Real.sqrt 2 / 4 + 1 / 2⌋ = 9 from by
    rw [Int.floor_eq_iff]
    constructor
    · push_cast; nlinarith [sqrt2_gt]
    · push_cast; nlinarith [sqrt2_lt]]
  decide

/-- C9 amended: the conversion to pixel rows truncates toward zero
(numpy `astype(int)`), which on nonnegative quotients is the floor:
`b_i = horizon_row - ⌊pov_base/retina_scale⌋` and
`h_i = horizon_row + ⌊pov_top/retina_scale⌋`. -/
theorem projection_trunc_amended (cfg : Config) (d : ℝ)
    (hb : 0 ≤ povBase cfg d / cfg.retinaScale)
    (ht : 0 ≤ povTop cfg d / cfg.retinaScale) :
    rowB cfg d = cfg.povHorizon - ⌊povBase cfg d / cfg.retinaScale⌋ ∧
      rowH cfg d = cfg.povHorizon + ⌊povTop cfg d / cfg.retinaScale⌋ := by
  unfold rowB rowH truncInt
  rw [if_pos hb, if_pos ht]
  exact ⟨rfl, rfl⟩

/-- Witness for the amended C9 at distance 1 in `cfg0`. -/
theorem projection_trunc_amended_witness :
    rowB cfg0 1 = cfg0.povHorizon - ⌊povBase cfg0 1 / cfg0.retinaScale⌋ ∧
      rowH cfg0 1 = cfg0.povHorizon + ⌊povTop cfg0 1 / cfg0.retinaScale⌋ :=
  projection_trunc_amended cfg0 1 (by norm_num [povBase, cfg0]) (by norm_num [povTop, cfg0])

/-! ### Concrete witnesses for the kinematics claims -/

theorem proposed_far : proposedPosition initState 100 0 = ⟨100, 0⟩ := by
  unfold proposedPosition proposedDirection
  refine Vec2.ext ?_ ?_ <;>
    simp [initState, Real.cos_zero, Real.sin_zero]

theorem not_contains_far : ¬ Contains cfg0 ⟨100, 0⟩ := by
  intro h
  have h0 := h 0 (by norm_num [cfg0])
  rw [vertex_eval_0 cfg0 rfl rfl,
    show vertex cfg0 (0 + 1) = vertex cfg0 1 from rfl, vertex_eval_1 cfg0 rfl rfl] at h0
  unfold cross at h0
  simp only [Vec2.sub_x, Vec2.sub_y] at h0
  nlinarith [sqrt2_gt, sqrt2_sq]

/-- Witness for C5: from the constructed state, a step of speed 100
proposes the position `(100, 0)` outside the walls; the step leaves the
whole agent state exactly unchanged. -/
theorem rejection_exact_witness : stepPose cfg0 initState 100 0 = initState :=
  rejection_exact cfg0 initState 100 0 le_rfl Real.two_pi_pos
    (by rw [proposed_far]; exact not_contains_far)

theorem onBoundary_mid : OnBoundary cfg0 ⟨5 * Real.sqrt 2 / 2, 0⟩ := by
  refine ⟨0, by norm_num [cfg0], 1 / 2, by norm_num, by norm_num, ?_⟩
  rw [show vertex cfg0 (0 + 1) = vertex cfg0 1 from rfl, vertex_eval_0 cfg0 rfl rfl,
    vertex_eval_1 cfg0 rfl rfl]
  refine Vec2.ext ?_ ?_ <;>
    simp only [Vec2.add_x, Vec2.add_y, Vec2.smul_x, Vec2.smul_y, Vec2.sub_x, Vec2.sub_y] <;>
    ring

theorem proposed_mid :
    proposedPosition initState (5 * Real.sqrt 2 / 2) 0 = ⟨5 * Real.sqrt 2 / 2, 0⟩ := by
  unfold proposedPosition proposedDirection
  refine Vec2.ext ?_ ?_ <;>
    simp [initState, Real.cos_zero, Real.sin_zero]

/-- Witness for C10: the midpoint of the first wall is a boundary
point; proposing it (speed `5*sqrt 2/2` along heading 0) leaves the
position unchanged. -/
theorem boundary_rejected_witness :
    (stepPose cfg0 initState (5 * Real.sqrt 2 / 2) 0).agent_position =
      initState.agent_position :=
  (boundary_rejected cfg0 (by norm_num [cfg0]) (by norm_num [cfg0]) initState
    (5 * Real.sqrt 2 / 2) 0 (by rw [proposed_mid]; exact onBoundary_mid) []).1

end ArenaSim
